import Mathlib

/-!
Verification of the PhoneArd test-routine firmware
(`src/examples/TestRoutine/TestRoutine.ino`).

The program is embedded shallowly: program memory is a function from byte
addresses to word values, 32-bit machine arithmetic is `Nat` with explicit
`% 2^32`, and the busy-wait loops are given a fuel parameter.  Every
definition below is translated from the source file; the few parts of the
repository that are not in `src/` (the `TestResult` struct of
`TestResult.h`) are modelled from the specification and marked as such.
-/

namespace PhoneArd

/-- Modulus of the `uint32_t` arithmetic used throughout, `2^32`. -/
def U32 : ℕ := 4294967296

/-- Bitwise complement of a `uint32_t` value (the C `~` operator):
exclusive-or with the all-ones word. -/
def bnot32 (x : ℕ) : ℕ := Nat.xor (x % U32) 4294967295

/-- One bit step of the CRC loop body in `runCRCWord`
(`TestRoutine.ino` lines 129-131): record the low bit, shift the
accumulator right by one, and xor in the reversed polynomial
`0xEDB88320` if the bit shifted out was set. -/
def crcBitStep (crc : ℕ) : ℕ :=
  let m := crc % 2
  let c := crc / 2
  if m = 1 then Nat.xor c 0xEDB88320 else c

/-- The `for (k = 16; k; k--)` loop of `runCRCWord`
(`TestRoutine.ino` lines 124-132).  The first argument is the loop
counter `k`; when `k` is a multiple of 8 (`!(k & 0x7)`, i.e. `k = 16`
and `k = 8`) the low byte of the remaining word is xor-ed into the
accumulator and the word is shifted right by 8, then the bit step runs. -/
def runCRCWordAux (mem16 : ℕ) : ℕ → ℕ → ℕ
  | 0, crc => crc
  | k + 1, crc =>
      let wv := mem16
      let (wv', crc') :=
        if (k + 1) % 8 = 0 then (wv / 256, Nat.xor crc (wv % 256)) else (wv, crc)
      runCRCWordAux wv' k (crcBitStep crc')

/-- Embedding of `runCRCWord(wordValue, &crc)` (`TestRoutine.ino` lines
123-133): feeds one 16-bit word through the bit-reflected CRC-32 update.
Here `wordValue` is a `uint16_t` and `crc` a `uint32_t`, hence the masks. -/
def runCRCWord (wordValue crc : ℕ) : ℕ :=
  runCRCWordAux (wordValue % 65536) 16 (crc % U32)

/-- Number of iterations of the `do { ... } while (--address_ctr)` loops of
`calcCRCFlash` and `calcCRCFlashBurst`: `address_ctr` is initialised to
`(end_addr - start_addr) / 2` in `uint32_t` arithmetic, and a do-while
loop with a post-decrement test runs `2^32` times when the counter starts
at zero. -/
def flashIters (start_addr end_addr : ℕ) : ℕ :=
  let ctr := ((end_addr % U32 + (U32 - start_addr % U32)) % U32) / 2
  if ctr = 0 then U32 else ctr

/-- The word-by-word loop of `calcCRCFlash` (`TestRoutine.ino` lines
92-95), instrumented with the list of byte addresses passed to
`pgm_read_word_far`.  Each iteration reads the word at `address`,
feeds it through `runCRCWord` and advances `address` by 2 (wrapping as
`uint32_t`). -/
def crcLoop (mem : ℕ → ℕ) : ℕ → ℕ → ℕ → ℕ × List ℕ
  | 0, _, crc => (crc, [])
  | n + 1, address, crc =>
      let r := crcLoop mem n ((address + 2) % U32) (runCRCWord (mem address) crc)
      (r.1, address :: r.2)

/-- Embedding of `calcCRCFlash(start_addr, end_addr, start_crc)`
(`TestRoutine.ino` lines 88-98): invert the seed, run the word loop,
invert the result. -/
def calcCRCFlash (mem : ℕ → ℕ) (start_addr end_addr start_crc : ℕ) : ℕ :=
  bnot32 (crcLoop mem (flashIters start_addr end_addr) (start_addr % U32)
            (bnot32 start_crc)).1

/-- The byte addresses `calcCRCFlash` reads from program memory. -/
def calcCRCFlashReads (mem : ℕ → ℕ) (start_addr end_addr : ℕ) : List ℕ :=
  (crcLoop mem (flashIters start_addr end_addr) (start_addr % U32) 0).2

/-- The burst loop of `calcCRCFlashBurst` (`TestRoutine.ino` lines
109-118), instrumented with the list of byte addresses read.  The
buffer pointer state is the list of words still to be consumed from
`buff`; the pointer starts at `buff + buff_len`, i.e. the empty list,
so the first iteration refills.  A refill reads 8 consecutive words
(`buff[k] = pgm_read_word_far(address); address += 2`). -/
def crcBurstLoop (mem : ℕ → ℕ) : ℕ → ℕ → List ℕ → ℕ → ℕ × List ℕ
  | 0, _, _, crc => (crc, [])
  | n + 1, address, buf, crc =>
      if buf.isEmpty then
        let newbuf := (List.range 8).map (fun k => mem ((address + 2 * k) % U32))
        let reads := (List.range 8).map (fun k => (address + 2 * k) % U32)
        let r := crcBurstLoop mem n ((address + 16) % U32) newbuf.tail
                   (runCRCWord (newbuf.headD 0) crc)
        (r.1, reads ++ r.2)
      else
        crcBurstLoop mem n address buf.tail (runCRCWord (buf.headD 0) crc)

/-- Embedding of `calcCRCFlashBurst(start_addr, end_addr, start_crc)`
(`TestRoutine.ino` lines 102-121): same wrapper as `calcCRCFlash`, but
the words are consumed through the 8-word burst buffer. -/
def calcCRCFlashBurst (mem : ℕ → ℕ) (start_addr end_addr start_crc : ℕ) : ℕ :=
  bnot32 (crcBurstLoop mem (flashIters start_addr end_addr) (start_addr % U32)
            [] (bnot32 start_crc)).1

/-- The byte addresses `calcCRCFlashBurst` reads from program memory. -/
def calcCRCFlashBurstReads (mem : ℕ → ℕ) (start_addr end_addr : ℕ) : List ℕ :=
  (crcBurstLoop mem (flashIters start_addr end_addr) (start_addr % U32) [] 0).2

/-- Modelled from the spec: the `TestResult` struct of `TestResult.h`
(the header is not part of the sources given): a short device name, a
boolean outcome and a short status text. -/
structure TestResult where
  device : String
  success : Bool
  status : String
deriving DecidableEq

/-- Capacity of the global result buffer
`TestResult test_results[15]` (`TestRoutine.ino` line 23). -/
def test_results_capacity : ℕ := 15

/-- The fixed ordered list of test names registered in `setup`
(`TestRoutine.ino` lines 176-187 and 193), in call order. -/
def registeredTests : List String :=
  ["LCD Screen", "Connector", "Flash", "BMP180", "MPU6050", "HMC5883L",
   "SRAM", "Micro-SD", "MP3", "MIDI", "WiFi", "Bluetooth", "SIM908"]

/-- The mutable globals touched by `doTest`: the running counter
`testCnt` (`TestRoutine.ino` line 17) and the result buffer
`test_results` (line 23), modelled as a map from slot index to the
stored result. -/
structure RunState where
  testCnt : ℕ
  test_results : ℕ → TestResult

/-- The result-recording core of `doTest` (`TestRoutine.ino` lines
48-62): run the probe, overwrite the result's `device` field with the
caller-supplied name (`strcpy(result.device, what)`), store it at slot
`testCnt`, increment `testCnt`, and return the result. -/
def doTestStore (what : String) (testFunc : Unit → TestResult) (st : RunState) :
    RunState × TestResult :=
  let result := { testFunc () with device := what }
  (⟨st.testCnt + 1, Function.update st.test_results st.testCnt result⟩, result)

/-- The fixed test sequence of `setup`: fold `doTestStore` over a list of
(name, probe) pairs, as the thirteen consecutive `doTest` calls do. -/
def runTests (tests : List (String × (Unit → TestResult))) (st : RunState) : RunState :=
  tests.foldl (fun s t => (doTestStore t.1 t.2 s).1) st

/-- The end-of-run aggregation loop of `setup` (`TestRoutine.ino` lines
199-218), as the list of lines printed to the serial console.  The
boolean argument is the `test_success` flag: while it is `true` no
failure has been seen yet, and the two-line header is printed before the
first failing entry. -/
def aggregateGo : List TestResult → Bool → List String
  | [], test_success =>
      if test_success then ["Testing completed: no problems found."] else []
  | r :: rs, test_success =>
      if r.success then aggregateGo rs test_success
      else
        (if test_success then
          ["Testing completed with errors.", "Please check the following components:"]
         else []) ++
        ("- " ++ r.device ++ " (" ++ r.status ++ ")") :: aggregateGo rs false

/-- The lines printed by the end-of-run aggregation, starting from
`test_success = true`. -/
def aggregateReport (results : List TestResult) : List String :=
  aggregateGo results true

/-- A busy-wait poll loop: starting at time `t`, advance one millisecond
per poll while `cond` holds, returning the first time at which `cond` is
false; `none` when the fuel runs out first. -/
def pollWhile (cond : ℕ → Bool) : ℕ → ℕ → Option ℕ
  | 0, _ => none
  | fuel + 1, t => if cond t then pollWhile cond fuel (t + 1) else some t

/-- Observable outcome of the interlock gate: the sequence of
`showMessage` calls it made, and the time at which it returned. -/
structure GateResult where
  msgs : List String
  ret : ℕ
deriving DecidableEq

/-- The release-instruction text shown by the gate
(`TestRoutine.ino` lines 32-33). -/
def releaseMsg : String :=
  "Please release the SELECT button\nIndicates hardware problem if not pressed"

/-- The interlock gate at the top of `doTest` (`TestRoutine.ino` lines
26-37).  `trace t` is the value of `isSelectPressed()` at millisecond
`t`; the gate starts at time `t0` (`sel_start = millis()`).  First loop:
poll while the button is pressed and less than 1000 ms have elapsed.
If the button is still pressed at loop exit, show the release
instruction, poll until released, and clear the message. -/
def doTestGate (trace : ℕ → Bool) (t0 fuel : ℕ) : Option GateResult :=
  match pollWhile (fun t => trace t && decide (t - t0 < 1000)) fuel t0 with
  | none => none
  | some t1 =>
      if trace t1 then
        match pollWhile trace fuel t1 with
        | none => none
        | some t2 => some ⟨[releaseMsg, ""], t2⟩
      else some ⟨[], t1⟩

/-- The backward scan loop at the start of `startLCDTest`
(`TestRoutine.ino` lines 226-232), with fuel for the do-while loop:
starting from `end_address`, break (keeping the current address) when
the word just below it is not erased (`!= 0xFFFF`), otherwise step down
by 2 until the lower bound `0x3E000` is reached. -/
def scanEndGo (mem : ℕ → ℕ) : ℕ → ℕ → ℕ
  | 0, end_address => end_address
  | fuel + 1, end_address =>
      if mem (end_address - 2) ≠ 0xFFFF then end_address
      else if end_address - 2 = 0x3E000 then end_address - 2
      else scanEndGo mem fuel (end_address - 2)

/-- The firmware-end scan of `startLCDTest`: scan backward from
`0x40000`; `(0x40000 - 0x3E000) / 2` steps of fuel are enough to reach
the lower bound. -/
def scanEnd (mem : ℕ → ℕ) : ℕ :=
  scanEndGo mem ((0x40000 - 0x3E000) / 2) 0x40000

/-- Modelled from the spec: the standard CRC-32/ISO-HDLC byte update
(polynomial `0xEDB88320`, LSB first): xor the byte into the low byte of
the accumulator, then eight shift-and-conditionally-xor steps.  This is
the reference against which `runCRCWord` is checked. -/
def crc32RefByte (crc b : ℕ) : ℕ := crcBitStep^[8] (Nat.xor (crc % U32) (b % 256))

/-- Modelled from the spec: the standard CRC-32/ISO-HDLC of a byte
sequence: accumulator starts at `0xFFFFFFFF`, each byte is folded in with
`crc32RefByte`, and the result is inverted. -/
def crc32Ref (bytes : List ℕ) : ℕ := bnot32 (bytes.foldl crc32RefByte 4294967295)

/-! Helper lemmas about the 32-bit arithmetic and the CRC primitives. -/

theorem U32_eq : U32 = 2 ^ 32 := by decide

theorem bnot32_lt (x : ℕ) : bnot32 x < U32 := by
  have h1 : x % U32 < 2 ^ 32 := by rw [← U32_eq]; exact Nat.mod_lt _ (by decide)
  have h2 : (4294967295 : ℕ) < 2 ^ 32 := by decide
  rw [U32_eq]
  exact Nat.xor_lt_two_pow h1 h2

theorem bnot32_bnot32 (x : ℕ) : bnot32 (bnot32 x) = x % U32 := by
  have h := bnot32_lt x
  unfold bnot32 at h ⊢
  rw [Nat.mod_eq_of_lt h]
  show x % U32 ^^^ 4294967295 ^^^ 4294967295 = x % U32
  rw [Nat.xor_assoc, Nat.xor_self, Nat.xor_zero]

theorem crcBitStep_lt {c : ℕ} (h : c < U32) : crcBitStep c < U32 := by
  unfold crcBitStep
  have h1 : c / 2 < 2 ^ 32 := lt_of_le_of_lt (Nat.div_le_self _ _) (U32_eq ▸ h)
  have h2 : (0xEDB88320 : ℕ) < 2 ^ 32 := by decide
  rw [U32_eq]
  dsimp only
  split
  · exact Nat.xor_lt_two_pow h1 h2
  · exact h1

theorem crcBitStep_iter_lt {c : ℕ} (h : c < U32) (n : ℕ) : crcBitStep^[n] c < U32 := by
  induction n generalizing c with
  | zero => exact h
  | succ n ih => rw [Function.iterate_succ_apply]; exact ih (crcBitStep_lt h)

theorem runCRCWordAux_lt (k : ℕ) :
    ∀ w c, c < U32 → runCRCWordAux w k c < U32 := by
  induction k with
  | zero => exact fun _ _ h => h
  | succ k ih =>
      intro w c h
      show runCRCWordAux w k.succ c < U32
      rw [runCRCWordAux.eq_2]
      dsimp only
      split
      · refine ih _ _ (crcBitStep_lt ?_)
        rw [U32_eq]
        exact Nat.xor_lt_two_pow (U32_eq ▸ h)
          (lt_of_lt_of_le (Nat.mod_lt _ (by decide)) (by decide))
      · exact ih _ _ (crcBitStep_lt h)

theorem runCRCWord_lt (w c : ℕ) : runCRCWord w c < U32 :=
  runCRCWordAux_lt 16 _ _ (Nat.mod_lt _ (by decide))

theorem crc32RefByte_lt (c b : ℕ) : crc32RefByte c b < U32 := by
  unfold crc32RefByte
  refine crcBitStep_iter_lt ?_ 8
  rw [U32_eq]
  exact Nat.xor_lt_two_pow (U32_eq ▸ Nat.mod_lt _ (by decide))
    (lt_of_lt_of_le (Nat.mod_lt _ (by decide)) (by decide))

/-- Iterations of `runCRCWordAux` below the byte boundary (loop counter at
most 7) are pure bit steps. -/
theorem runCRCWordAux_bits (k : ℕ) (hk : k ≤ 7) :
    ∀ w c, runCRCWordAux w k c = crcBitStep^[k] c := by
  induction k with
  | zero => exact fun _ _ => rfl
  | succ k ih =>
      intro w c
      have h8 : ¬ (k + 1) % 8 = 0 := by omega
      show runCRCWordAux w k.succ c = _
      rw [runCRCWordAux.eq_2]
      simp only [h8, if_false]
      rw [ih (by omega), ← Function.iterate_succ_apply]

/-- Iterations of `runCRCWordAux` strictly between the two byte
boundaries are pure bit steps as well. -/
theorem runCRCWordAux_mid (j : ℕ) (hj : j ≤ 7) (w : ℕ) :
    ∀ c, runCRCWordAux w (8 + j) c = runCRCWordAux w 8 (crcBitStep^[j] c) := by
  induction j with
  | zero => exact fun _ => rfl
  | succ j ih =>
      intro c
      have h8 : ¬ (8 + j + 1) % 8 = 0 := by omega
      show runCRCWordAux w (8 + j).succ c = _
      rw [runCRCWordAux.eq_2]
      simp only [h8, if_false]
      rw [ih (by omega), ← Function.iterate_succ_apply]

/-- One 16-bit word through `runCRCWord` is exactly two standard CRC-32
byte updates: first the low byte, then the high byte. -/
theorem runCRCWord_eq_bytes (w c : ℕ) :
    runCRCWord w c = crc32RefByte (crc32RefByte c w) (w % 65536 / 256) := by
  have e16 : runCRCWord w c
      = runCRCWordAux (w % 65536 / 256) 15
          (crcBitStep (Nat.xor (c % U32) (w % 65536 % 256))) := rfl
  have e15 : (15 : ℕ) = 8 + 7 := by norm_num
  have e8 : ∀ w' c', runCRCWordAux w' 8 c'
      = runCRCWordAux (w' / 256) 7 (crcBitStep (Nat.xor c' (w' % 256))) :=
    fun _ _ => rfl
  have hW : w % 65536 % 256 = w % 256 := Nat.mod_mod_of_dvd w (by norm_num)
  have hb1 : crcBitStep^[7] (crcBitStep (Nat.xor (c % U32) (w % 256)))
      = crc32RefByte c w := by
    rw [← Function.iterate_succ_apply]; rfl
  have hlt : crc32RefByte c w < U32 := crc32RefByte_lt c w
  have hsm : w % 65536 / 256 % 256 = w % 65536 / 256 :=
    Nat.mod_eq_of_lt (by omega)
  have houter : crc32RefByte (crc32RefByte c w) (w % 65536 / 256)
      = crcBitStep^[8] (Nat.xor (crc32RefByte c w) (w % 65536 / 256 % 256)) := by
    unfold crc32RefByte
    rw [Nat.mod_eq_of_lt (U32_eq ▸ crc32RefByte_lt c w)]
  rw [e16, e15, runCRCWordAux_mid 7 le_rfl, e8, runCRCWordAux_bits 7 le_rfl, hW, hb1,
    houter, ← Function.iterate_succ_apply]

/-! Lemmas about the sequential word loop `crcLoop`. -/

theorem crcLoop_length (mem : ℕ → ℕ) (n : ℕ) :
    ∀ a c, ((crcLoop mem n a c).2).length = n := by
  induction n with
  | zero => intro a c; rfl
  | succ n ih =>
      intro a c
      show (a :: (crcLoop mem n ((a + 2) % U32) (runCRCWord (mem a) c)).2).length = n + 1
      rw [List.length_cons, ih]

/-- In a region that does not wrap around the address space, the
sequential loop reads exactly the addresses `a, a+2, …, a+2*(n-1)`. -/
theorem crcLoop_reads (mem : ℕ → ℕ) (n : ℕ) :
    ∀ a c, a + 2 * n ≤ U32 → (crcLoop mem n a c).2 = List.range' a n 2 := by
  induction n with
  | zero => intro a c _; rfl
  | succ n ih =>
      intro a c h
      show (a :: (crcLoop mem n ((a + 2) % U32) (runCRCWord (mem a) c)).2)
        = List.range' a (n + 1) 2
      rw [List.range'_succ]
      rcases Nat.eq_zero_or_pos n with h0 | h0
      · subst h0; rfl
      · have hm : (a + 2) % U32 = a + 2 := Nat.mod_eq_of_lt (by omega)
        rw [hm, ih (a + 2) _ (by omega)]

/-- In a region that does not wrap, the sequential loop is a left fold of
`runCRCWord` over the words read in ascending address order. -/
theorem crcLoop_fst (mem : ℕ → ℕ) (n : ℕ) :
    ∀ a c, a + 2 * n ≤ U32 →
      (crcLoop mem n a c).1
        = ((List.range' a n 2).map mem).foldl (fun crc w => runCRCWord w crc) c := by
  induction n with
  | zero => intro a c _; rfl
  | succ n ih =>
      intro a c h
      show (crcLoop mem n ((a + 2) % U32) (runCRCWord (mem a) c)).1 = _
      rw [List.range'_succ, List.map_cons, List.foldl_cons]
      rcases Nat.eq_zero_or_pos n with h0 | h0
      · subst h0; rfl
      · have hm : (a + 2) % U32 = a + 2 := Nat.mod_eq_of_lt (by omega)
        rw [hm, ih (a + 2) _ (by omega)]

theorem crcLoop_lt (mem : ℕ → ℕ) (n : ℕ) :
    ∀ a c, c < U32 → (crcLoop mem n a c).1 < U32 := by
  induction n with
  | zero => exact fun _ _ h => h
  | succ n ih =>
      intro a c _
      show (crcLoop mem n ((a + 2) % U32) (runCRCWord (mem a) c)).1 < U32
      exact ih _ _ (runCRCWord_lt _ _)

/-- Splitting a non-wrapping sequential run into two back-to-back runs. -/
theorem crcLoop_split (mem : ℕ → ℕ) (m k a c : ℕ) (h : a + 2 * (m + k) ≤ U32) :
    (crcLoop mem (m + k) a c).1
      = (crcLoop mem k (a + 2 * m) (crcLoop mem m a c).1).1 := by
  rw [crcLoop_fst mem (m + k) a c h, crcLoop_fst mem m a c (by omega),
    crcLoop_fst mem k (a + 2 * m) _ (by omega),
    show m + k = k + m by omega, ← List.range'_append a m k 2,
    List.map_append, List.foldl_append]

/-- The sequential CRC depends only on the memory content at the
addresses it reads. -/
theorem crcLoop_congr (mem mem' : ℕ → ℕ) (n a c : ℕ) (h : a + 2 * n ≤ U32)
    (hag : ∀ x ∈ List.range' a n 2, mem x = mem' x) :
    (crcLoop mem n a c).1 = (crcLoop mem' n a c).1 := by
  rw [crcLoop_fst mem n a c h, crcLoop_fst mem' n a c h, List.map_congr_left hag]

/-! Equivalence of the burst loop with the sequential loop. -/

/-- Invariant of the burst loop: with `j` of the 8 buffered words already
consumed from a refill based at address `b`, the burst loop computes the
same CRC as the sequential loop positioned at address `b + 2*j`. -/
theorem crcBurstLoop_fst (mem : ℕ → ℕ) (n : ℕ) :
    ∀ b j crc, b < U32 → j ≤ 8 →
      (crcBurstLoop mem n ((b + 16) % U32)
        ((List.range' j (8 - j)).map (fun k => mem ((b + 2 * k) % U32))) crc).1
      = (crcLoop mem n ((b + 2 * j) % U32) crc).1 := by
  induction n with
  | zero => intros; rfl
  | succ n ih =>
      intro b j crc hb hj
      rcases Nat.lt_or_ge j 8 with hj8 | hj8
      · -- buffered words remain: consume the head of the buffer
        have hs : 8 - j = (8 - (j + 1)) + 1 := by omega
        rw [hs, List.range'_succ, List.map_cons]
        show (crcBurstLoop mem n ((b + 16) % U32)
            ((List.range' (j + 1) (8 - (j + 1))).map (fun k => mem ((b + 2 * k) % U32)))
            (runCRCWord (mem ((b + 2 * j) % U32)) crc)).1 = _
        rw [ih b (j + 1) _ hb (by omega)]
        show _ = (crcLoop mem n (((b + 2 * j) % U32 + 2) % U32)
            (runCRCWord (mem ((b + 2 * j) % U32)) crc)).1
        have hadr : ((b + 2 * j) % U32 + 2) % U32 = (b + 2 * (j + 1)) % U32 := by
          unfold U32; omega
        rw [hadr]
      · -- buffer exhausted: refill at the current address
        have hj8' : j = 8 := by omega
        subst hj8'
        have hempty : (List.range' 8 (8 - 8)).map (fun k => mem ((b + 2 * k) % U32))
            = ([] : List ℕ) := rfl
        rw [hempty]
        have hb' : (b + 16) % U32 < U32 := Nat.mod_lt _ (by decide)
        have hbuf : (List.range 8).map (fun k => mem (((b + 16) % U32 + 2 * k) % U32))
            = mem (((b + 16) % U32 + 2 * 0) % U32)
              :: (List.range' 1 (8 - 1)).map (fun k => mem (((b + 16) % U32 + 2 * k) % U32)) := by
          rw [show List.range 8 = 0 :: List.range' 1 7 from rfl, List.map_cons]
        show (crcBurstLoop mem n (((b + 16) % U32 + 16) % U32)
            (((List.range 8).map (fun k => mem (((b + 16) % U32 + 2 * k) % U32))).tail)
            (runCRCWord
              ((((List.range 8).map (fun k => mem (((b + 16) % U32 + 2 * k) % U32)))).headD 0)
              crc)).1 = _
        rw [hbuf]
        show (crcBurstLoop mem n (((b + 16) % U32 + 16) % U32)
            ((List.range' 1 (8 - 1)).map (fun k => mem (((b + 16) % U32 + 2 * k) % U32)))
            (runCRCWord (mem (((b + 16) % U32 + 2 * 0) % U32)) crc)).1 = _
        rw [ih ((b + 16) % U32) 1 _ hb' (by omega)]
        have h0 : ((b + 16) % U32 + 2 * 0) % U32 = (b + 16) % U32 := by
          unfold U32 at *; omega
        have h1 : ((b + 16) % U32 + 2 * 1) % U32 = ((b + 2 * 8) % U32 + 2) % U32 := by
          unfold U32; omega
        rw [h0, h1]
        show (crcLoop mem n (((b + 2 * 8) % U32 + 2) % U32)
            (runCRCWord (mem ((b + 16) % U32)) crc)).1 = _
        have h2 : (b + 16) % U32 = (b + 2 * 8) % U32 := by norm_num
        rw [h2]
        rfl

/-- Entry form of the burst/sequential equivalence: the burst loop
started with an empty buffer computes the sequential CRC. -/
theorem crcBurstLoop_entry (mem : ℕ → ℕ) (n : ℕ) (a crc : ℕ) (ha : a < U32) :
    (crcBurstLoop mem n a [] crc).1 = (crcLoop mem n a crc).1 := by
  cases n with
  | zero => rfl
  | succ n =>
      have hbuf : (List.range 8).map (fun k => mem ((a + 2 * k) % U32))
          = mem ((a + 2 * 0) % U32)
            :: (List.range' 1 (8 - 1)).map (fun k => mem ((a + 2 * k) % U32)) := by
        rw [show List.range 8 = 0 :: List.range' 1 7 from rfl, List.map_cons]
      show (crcBurstLoop mem n ((a + 16) % U32)
          (((List.range 8).map (fun k => mem ((a + 2 * k) % U32))).tail)
          (runCRCWord ((((List.range 8).map (fun k => mem ((a + 2 * k) % U32)))).headD 0)
            crc)).1 = _
      rw [hbuf]
      show (crcBurstLoop mem n ((a + 16) % U32)
          ((List.range' 1 (8 - 1)).map (fun k => mem ((a + 2 * k) % U32)))
          (runCRCWord (mem ((a + 2 * 0) % U32)) crc)).1 = _
      rw [crcBurstLoop_fst mem n a 1 _ ha (by omega)]
      have h0 : (a + 2 * 0) % U32 = a := by
        rw [Nat.mul_zero, Nat.add_zero]; exact Nat.mod_eq_of_lt ha
      have h1 : (a + 2 * 1) % U32 = (a + 2) % U32 := by norm_num
      rw [h0, h1]
      rfl

/-! Read traces of the burst loop. -/

/-- Invariant for the burst loop's read addresses: with `j` of the 8
buffered words consumed, the loop will perform `⌈(n - (8-j)) / 8⌉` more
refills of 8 words each, at consecutive addresses from the current read
pointer. -/
theorem crcBurstLoop_reads (mem : ℕ → ℕ) (n : ℕ) :
    ∀ b j crc, j ≤ 8 →
      (crcBurstLoop mem n ((b + 16) % U32)
        ((List.range' j (8 - j)).map (fun k => mem ((b + 2 * k) % U32))) crc).2
      = (List.range (8 * ((n - (8 - j) + 7) / 8))).map
          (fun i => ((b + 16) % U32 + 2 * i) % U32) := by
  induction n with
  | zero =>
      intro b j crc hj
      have h0 : 8 * ((0 - (8 - j) + 7) / 8) = 0 := by omega
      rw [h0]
      rfl
  | succ n ih =>
      intro b j crc hj
      rcases Nat.lt_or_ge j 8 with hj8 | hj8
      · have hs : 8 - j = (8 - (j + 1)) + 1 := by omega
        rw [hs, List.range'_succ, List.map_cons]
        show (crcBurstLoop mem n ((b + 16) % U32)
            ((List.range' (j + 1) (8 - (j + 1))).map (fun k => mem ((b + 2 * k) % U32)))
            (runCRCWord (mem ((b + 2 * j) % U32)) crc)).2 = _
        rw [ih b (j + 1) _ (by omega)]
        have hA : 8 * ((n - (8 - (j + 1)) + 7) / 8)
            = 8 * ((n + 1 - (8 - j) + 7) / 8) := by omega
        rw [hA]
        have hB : 8 * ((n + 1 - (8 - j) + 7) / 8)
            = 8 * ((n + 1 - (8 - (j + 1) + 1) + 7) / 8) := by omega
        rw [hB]
      · have hj8' : j = 8 := by omega
        subst hj8'
        have hempty : (List.range' 8 (8 - 8)).map (fun k => mem ((b + 2 * k) % U32))
            = ([] : List ℕ) := rfl
        rw [hempty]
        have hbuf : (List.range 8).map (fun k => mem (((b + 16) % U32 + 2 * k) % U32))
            = mem (((b + 16) % U32 + 2 * 0) % U32)
              :: (List.range' 1 (8 - 1)).map
                  (fun k => mem (((b + 16) % U32 + 2 * k) % U32)) := by
          rw [show List.range 8 = 0 :: List.range' 1 7 from rfl, List.map_cons]
        show ((List.range 8).map (fun k => ((b + 16) % U32 + 2 * k) % U32)
            ++ (crcBurstLoop mem n (((b + 16) % U32 + 16) % U32)
              (((List.range 8).map (fun k => mem (((b + 16) % U32 + 2 * k) % U32))).tail)
              (runCRCWord
                ((((List.range 8).map
                  (fun k => mem (((b + 16) % U32 + 2 * k) % U32)))).headD 0) crc)).2) = _
        rw [hbuf]
        show ((List.range 8).map (fun k => ((b + 16) % U32 + 2 * k) % U32)
            ++ (crcBurstLoop mem n (((b + 16) % U32 + 16) % U32)
              ((List.range' 1 (8 - 1)).map
                (fun k => mem (((b + 16) % U32 + 2 * k) % U32)))
              (runCRCWord (mem (((b + 16) % U32 + 2 * 0) % U32)) crc)).2) = _
        rw [ih ((b + 16) % U32) 1 _ (by omega)]
        have hN : 8 * ((n + 1 - (8 - 8) + 7) / 8) = 8 + 8 * ((n - (8 - 1) + 7) / 8) := by
          omega
        rw [hN, List.range_add, List.map_append, List.map_map]
        congr 1
        apply List.map_congr_left
        intro i _
        show (((b + 16) % U32 + 16) % U32 + 2 * i) % U32
          = ((b + 16) % U32 + 2 * (8 + i)) % U32
        unfold U32
        omega

/-- Read addresses of the burst loop started with an empty buffer: whole
bursts of 8 words, `⌈n/8⌉` of them. -/
theorem crcBurstLoop_reads_entry (mem : ℕ → ℕ) (n : ℕ) (a crc : ℕ) :
    (crcBurstLoop mem n a [] crc).2
      = (List.range (8 * ((n + 7) / 8))).map (fun i => (a + 2 * i) % U32) := by
  cases n with
  | zero => rfl
  | succ n =>
      have hbuf : (List.range 8).map (fun k => mem ((a + 2 * k) % U32))
          = mem ((a + 2 * 0) % U32)
            :: (List.range' 1 (8 - 1)).map (fun k => mem ((a + 2 * k) % U32)) := by
        rw [show List.range 8 = 0 :: List.range' 1 7 from rfl, List.map_cons]
      show ((List.range 8).map (fun k => (a + 2 * k) % U32)
          ++ (crcBurstLoop mem n ((a + 16) % U32)
            (((List.range 8).map (fun k => mem ((a + 2 * k) % U32))).tail)
            (runCRCWord ((((List.range 8).map (fun k => mem ((a + 2 * k) % U32)))).headD 0)
              crc)).2) = _
      rw [hbuf]
      show ((List.range 8).map (fun k => (a + 2 * k) % U32)
          ++ (crcBurstLoop mem n ((a + 16) % U32)
            ((List.range' 1 (8 - 1)).map (fun k => mem ((a + 2 * k) % U32)))
            (runCRCWord (mem ((a + 2 * 0) % U32)) crc)).2) = _
      rw [crcBurstLoop_reads mem n a 1 _ (by omega)]
      have hN : 8 * ((n + 1 + 7) / 8) = 8 + 8 * ((n - (8 - 1) + 7) / 8) := by omega
      rw [hN, List.range_add, List.map_append, List.map_map]
      congr 1
      apply List.map_congr_left
      intro i _
      show ((a + 16) % U32 + 2 * i) % U32 = (a + 2 * (8 + i)) % U32
      unfold U32
      omega

/-- The `uint32_t` iteration count agrees with the exact word count on a
well-formed, non-empty region. -/
theorem flashIters_eq (s e : ℕ) (h1 : s ≤ e) (h2 : e < U32) (h3 : 2 ≤ e - s) :
    flashIters s e = (e - s) / 2 := by
  unfold flashIters
  have hc : (e % U32 + (U32 - s % U32)) % U32 / 2 = (e - s) / 2 := by
    unfold U32 at *
    omega
  rw [hc]
  have hnz : ¬ (e - s) / 2 = 0 := by omega
  simp only [hnz, if_false]

/-! Lemmas about the end-of-run aggregation. -/

/-- Aggregation after the first failure has been seen: one formatted line
per failing result, in order, with no further header and no final
no-problems line. -/
theorem aggregateGo_false (rs : List TestResult) :
    aggregateGo rs false
      = (rs.filter (fun r => !r.success)).map
          (fun r => "- " ++ r.device ++ " (" ++ r.status ++ ")") := by
  induction rs with
  | nil => rfl
  | cons r rs ih =>
      by_cases h : r.success
      · simp [aggregateGo, h, ih, List.filter_cons]
      · simp [aggregateGo, h, ih, List.filter_cons]

/-! Lemmas about the runner state. -/

theorem runTests_testCnt (ts : List (String × (Unit → TestResult))) :
    ∀ st, (runTests ts st).testCnt = st.testCnt + ts.length := by
  induction ts with
  | nil => intro st; rfl
  | cons t ts ih =>
      intro st
      show (runTests ts (doTestStore t.1 t.2 st).1).testCnt = _
      rw [ih]
      show st.testCnt + 1 + ts.length = st.testCnt + (ts.length + 1)
      omega

/-- Running further tests never touches result slots below the current
counter: results are never mutated after insertion. -/
theorem runTests_preserve (ts : List (String × (Unit → TestResult))) :
    ∀ st i, i < st.testCnt → (runTests ts st).test_results i = st.test_results i := by
  induction ts with
  | nil => intro st i _; rfl
  | cons t ts ih =>
      intro st i hi
      show (runTests ts (doTestStore t.1 t.2 st).1).test_results i = _
      rw [ih _ i (by exact Nat.lt_succ_of_lt hi)]
      show Function.update st.test_results st.testCnt _ i = st.test_results i
      exact Function.update_noteq (by omega) _ _

/-- Slot `st.testCnt + k` of the final state holds the result of the
`k`-th test of the sequence, with its `device` field overwritten by the
test's registered name. -/
theorem runTests_slot (ts : List (String × (Unit → TestResult))) :
    ∀ st k (hk : k < ts.length),
      (runTests ts st).test_results (st.testCnt + k)
        = { (ts.get ⟨k, hk⟩).2 () with device := (ts.get ⟨k, hk⟩).1 } := by
  induction ts with
  | nil => intro st k hk; exact absurd hk (by simp)
  | cons t ts ih =>
      intro st k hk
      cases k with
      | zero =>
          show (runTests ts (doTestStore t.1 t.2 st).1).test_results (st.testCnt + 0) = _
          rw [runTests_preserve ts _ _ (by show st.testCnt + 0 < st.testCnt + 1; omega)]
          show Function.update st.test_results st.testCnt _ (st.testCnt + 0) = _
          rw [Nat.add_zero, Function.update_same]
          rfl
      | succ k =>
          show (runTests ts (doTestStore t.1 t.2 st).1).test_results (st.testCnt + (k + 1)) = _
          have hre : st.testCnt + (k + 1) = (doTestStore t.1 t.2 st).1.testCnt + k := by
            show st.testCnt + (k + 1) = st.testCnt + 1 + k
            omega
          rw [hre, ih _ k (by exact Nat.lt_of_succ_lt_succ hk)]
          rfl

/-! Lemmas about the busy-wait poll loop. -/

/-- A poll loop exits at the first time its condition fails, provided
that time is within the fuel window. -/
theorem pollWhile_spec (cond : ℕ → Bool) (te : ℕ) (fuel : ℕ) :
    ∀ t0, t0 ≤ te → (∀ t, t0 ≤ t → t < te → cond t = true) → cond te = false →
      te < t0 + fuel → pollWhile cond fuel t0 = some te := by
  induction fuel with
  | zero => intro t0 _ _ _ h4; omega
  | succ fuel ih =>
      intro t0 h1 h2 h3 h4
      show (if cond t0 then pollWhile cond fuel (t0 + 1) else some t0) = some te
      rcases Nat.lt_or_ge t0 te with hlt | hge
      · rw [h2 t0 le_rfl hlt]
        show pollWhile cond fuel (t0 + 1) = some te
        exact ih (t0 + 1) (by omega) (fun t ht1 ht2 => h2 t (by omega) ht2) h3 (by omega)
      · have hte : t0 = te := by omega
        subst hte
        rw [h3]
        rfl

/-- Whenever a poll loop returns a time, the condition is false there. -/
theorem pollWhile_ret (cond : ℕ → Bool) (fuel : ℕ) :
    ∀ t0 te, pollWhile cond fuel t0 = some te → cond te = false := by
  induction fuel with
  | zero => intro t0 te h; exact absurd h (by simp [pollWhile])
  | succ fuel ih =>
      intro t0 te h
      by_cases hc : cond t0
      · exact ih (t0 + 1) te (by simpa [pollWhile, hc] using h)
      · have hte : te = t0 := by
          have := h
          simp [pollWhile, hc] at this
          omega
        subst hte
        exact Bool.eq_false_iff.mpr hc

/-! Lemmas about the firmware-end backward scan. -/

/-- Characterisation of the backward scan loop: starting at an even
address `e = 0x3E000 + 2*fuel`, the loop returns an address `r` in
`[0x3E000, e]` of the same parity such that every word from `r` up to
`e` (exclusive) reads erased, and either `r` is the lower bound or the
word just below `r` is not erased. -/
theorem scanEndGo_spec (mem : ℕ → ℕ) (fuel : ℕ) :
    ∀ e, e = 0x3E000 + 2 * fuel →
      0x3E000 ≤ scanEndGo mem fuel e ∧ scanEndGo mem fuel e ≤ e ∧
      2 ∣ (e - scanEndGo mem fuel e) ∧
      (∀ k, scanEndGo mem fuel e + 2 * k < e → mem (scanEndGo mem fuel e + 2 * k) = 0xFFFF) ∧
      (scanEndGo mem fuel e = 0x3E000 ∨ mem (scanEndGo mem fuel e - 2) ≠ 0xFFFF) := by
  induction fuel with
  | zero =>
      intro e he
      have h0 : scanEndGo mem 0 e = e := rfl
      rw [h0]
      have he0 : e = 0x3E000 := by omega
      subst he0
      exact ⟨le_rfl, le_rfl, ⟨0, by omega⟩, fun k hk => absurd hk (by omega), Or.inl rfl⟩
  | succ fuel ih =>
      intro e he
      have step : scanEndGo mem (fuel + 1) e
          = if mem (e - 2) ≠ 0xFFFF then e
            else if e - 2 = 0x3E000 then e - 2 else scanEndGo mem fuel (e - 2) := rfl
      by_cases h1 : mem (e - 2) = 0xFFFF
      · by_cases h2 : e - 2 = 0x3E000
        · have hr : scanEndGo mem (fuel + 1) e = e - 2 := by
            rw [step, if_neg (by simp [h1]), if_pos h2]
          rw [hr]
          refine ⟨by omega, by omega, ⟨1, by omega⟩, ?_, Or.inl h2⟩
          intro k hk
          have hk0 : k = 0 := by omega
          subst hk0
          have : e - 2 + 2 * 0 = e - 2 := by omega
          rw [this, h1]
        · have hr : scanEndGo mem (fuel + 1) e = scanEndGo mem fuel (e - 2) := by
            rw [step, if_neg (by simp [h1]), if_neg h2]
          rw [hr]
          obtain ⟨ih1, ih2, ih3, ih4, ih5⟩ := ih (e - 2) (by omega)
          refine ⟨ih1, by omega, ?_, ?_, ih5⟩
          · obtain ⟨m, hm⟩ := ih3
            exact ⟨m + 1, by omega⟩
          · intro k hk
            rcases Nat.lt_or_ge (scanEndGo mem fuel (e - 2) + 2 * k) (e - 2) with hlt | hge
            · exact ih4 k hlt
            · obtain ⟨m, hm⟩ := ih3
              have : scanEndGo mem fuel (e - 2) + 2 * k = e - 2 := by omega
              rw [this, h1]
      · have hr : scanEndGo mem (fuel + 1) e = e := by
          rw [step, if_pos h1]
        rw [hr]
        exact ⟨by omega, le_rfl, ⟨0, by omega⟩, fun k hk => absurd hk (by omega),
          Or.inr h1⟩

/-! The claims. -/

/-- Claim C1: for every start address, end address and seed over any
memory content, `calcCRCFlash` and `calcCRCFlashBurst` return identical
values for identical `(start, end, seed)`.  This holds for every input,
in particular for every region whose length is a multiple of 2. -/
theorem claim_C1_burst_equiv (mem : ℕ → ℕ) (start_addr end_addr start_crc : ℕ) :
    calcCRCFlashBurst mem start_addr end_addr start_crc
      = calcCRCFlash mem start_addr end_addr start_crc := by
  unfold calcCRCFlashBurst calcCRCFlash
  rw [crcBurstLoop_entry mem _ _ _ (Nat.mod_lt _ (by decide))]

/-- Claim C2: `runCRCWord` implements the standard bit-reflected CRC-32
byte update (polynomial `0xEDB88320`, LSB first) on the two bytes of its
16-bit word, low byte first; and feeding the bytes
`[0x01, 0x02, 0x03, 0x04]` as the little-endian words `0x0201`, `0x0403`
with seed 0 (accumulator initialised by inverting the seed and finalised
by inversion) reproduces the standard CRC-32/ISO-HDLC value
`0xB63CFBCD` of that byte sequence. -/
theorem claim_C2_crcWord_standard :
    (∀ w crc, runCRCWord w crc = crc32RefByte (crc32RefByte crc w) (w % 65536 / 256)) ∧
    bnot32 (runCRCWord 0x0403 (runCRCWord 0x0201 (bnot32 0))) = 0xB63CFBCD ∧
    crc32Ref [0x01, 0x02, 0x03, 0x04] = 0xB63CFBCD := by
  refine ⟨runCRCWord_eq_bytes, ?_, ?_⟩
  · decide
  · decide

/-- Claim C3, counterexample: seed chaining fails when the split point
`b` makes the first region's length odd.  With `a = 0`, `b = 3`,
`c = 5`, the chained computation hashes the words at addresses 0 and 3,
while the single pass hashes the words at addresses 0 and 2. -/
theorem claim_C3_chain_cex :
    calcCRCFlash (fun a => (a * 7 + 3) % 65536) 3 5
        (calcCRCFlash (fun a => (a * 7 + 3) % 65536) 0 3 0)
      ≠ calcCRCFlash (fun a => (a * 7 + 3) % 65536) 0 5 0 := by decide

/-- Claim C3, amended: seed chaining holds for contiguous regions when
the first region's length `b - a` is even (so the second region starts
on the word grid) and both regions are non-empty at word granularity. -/
theorem claim_C3_chain (mem : ℕ → ℕ) (a b c : ℕ)
    (hab : a < b) (hbc : b + 2 ≤ c) (heven : 2 ∣ (b - a)) (hc : c < U32) :
    calcCRCFlash mem b c (calcCRCFlash mem a b 0) = calcCRCFlash mem a c 0 := by
  have hb : b < U32 := by omega
  have ha : a < U32 := by omega
  have hi1 : flashIters a b = (b - a) / 2 := flashIters_eq a b (by omega) hb (by omega)
  have hi2 : flashIters b c = (c - b) / 2 := flashIters_eq b c (by omega) hc (by omega)
  have hi3 : flashIters a c = (c - a) / 2 := flashIters_eq a c (by omega) hc (by omega)
  have hm : (c - a) / 2 = (b - a) / 2 + (c - b) / 2 := by omega
  unfold calcCRCFlash
  rw [hi1, hi2, hi3, hm, Nat.mod_eq_of_lt ha, Nat.mod_eq_of_lt hb, bnot32_bnot32]
  have hX : (crcLoop mem ((b - a) / 2) a (bnot32 0)).1 < U32 :=
    crcLoop_lt mem _ a _ (bnot32_lt 0)
  rw [Nat.mod_eq_of_lt hX,
    crcLoop_split mem ((b - a) / 2) ((c - b) / 2) a (bnot32 0) (by omega)]
  have haddr : a + 2 * ((b - a) / 2) = b := by omega
  rw [haddr]

/-- Claim C3, witness for the amended chaining theorem at a concrete
even split. -/
theorem claim_C3_chain_witness :
    calcCRCFlash (fun a => a % 65536) 4 10 (calcCRCFlash (fun a => a % 65536) 0 4 0)
      = calcCRCFlash (fun a => a % 65536) 0 10 0 :=
  claim_C3_chain (fun a => a % 65536) 0 4 10 (by decide) (by decide) (by decide)
    (by decide)

/-- Claim C4: the end-of-run aggregation prints, when at least one
result failed, the two header lines exactly once followed by one
formatted line per failing result in original order with no reordering
or deduplication and no line for succeeding results; and when no result
failed, exactly the single no-problems line. -/
theorem claim_C4_aggregation (results : List TestResult) :
    aggregateReport results
      = if (results.filter (fun r => !r.success)).isEmpty then
          ["Testing completed: no problems found."]
        else
          "Testing completed with errors." :: "Please check the following components:" ::
            (results.filter (fun r => !r.success)).map
              (fun r => "- " ++ r.device ++ " (" ++ r.status ++ ")") := by
  unfold aggregateReport
  induction results with
  | nil => rfl
  | cons r rs ih =>
      by_cases h : r.success
      · simp only [aggregateGo, h, if_true, List.filter_cons] at ih ⊢
        simpa [h] using ih
      · simp [aggregateGo, h, aggregateGo_false, List.filter_cons]

/-- Claim C5, counterexample: on a region of length 0 the word loop of
`calcCRCFlash` is a do-while whose counter starts at zero, so it
processes `2^32` words, not 0. -/
theorem claim_C5_zero_length_cex :
    (calcCRCFlashReads (fun _ => 0) 0 0).length = 4294967296 ∧ (0 - 0) / 2 = 0 := by
  constructor
  · unfold calcCRCFlashReads
    rw [crcLoop_length]
    decide
  · rfl

/-- Claim C5, amended: on a region of nonzero word count (and with
well-formed addresses), `calcCRCFlash` inverts the seed, reads exactly
the `(end - start) / 2` 16-bit cells from `start` to `end` (exclusive)
strictly sequentially in ascending address order, feeds each through
`runCRCWord`, and inverts the result. -/
theorem claim_C5_region_scan (mem : ℕ → ℕ) (s e seed : ℕ)
    (h1 : s ≤ e) (h2 : e < U32) (h3 : 2 ≤ e - s) :
    calcCRCFlashReads mem s e = List.range' s ((e - s) / 2) 2 ∧
    (calcCRCFlashReads mem s e).length = (e - s) / 2 ∧
    calcCRCFlash mem s e seed
      = bnot32 (((List.range' s ((e - s) / 2) 2).map mem).foldl
          (fun crc w => runCRCWord w crc) (bnot32 seed)) := by
  have hs : s % U32 = s := Nat.mod_eq_of_lt (by omega)
  have hit : flashIters s e = (e - s) / 2 := flashIters_eq s e h1 h2 h3
  have hnw : s + 2 * ((e - s) / 2) ≤ U32 := by omega
  refine ⟨?_, ?_, ?_⟩
  · unfold calcCRCFlashReads
    rw [hit, hs, crcLoop_reads mem _ s _ hnw]
  · unfold calcCRCFlashReads
    rw [hit, hs, crcLoop_length]
  · unfold calcCRCFlash
    rw [hit, hs, crcLoop_fst mem _ s _ hnw]

/-- Claim C5, witness for the amended theorem on a concrete 3-word
region. -/
theorem claim_C5_region_scan_witness :
    calcCRCFlashReads (fun a => a + 1) 0 6 = List.range' 0 ((6 - 0) / 2) 2 ∧
    (calcCRCFlashReads (fun a => a + 1) 0 6).length = (6 - 0) / 2 ∧
    calcCRCFlash (fun a => a + 1) 0 6 0
      = bnot32 (((List.range' 0 ((6 - 0) / 2) 2).map (fun a => a + 1)).foldl
          (fun crc w => runCRCWord w crc) (bnot32 0)) :=
  claim_C5_region_scan (fun a => a + 1) 0 6 0 (by decide) (by decide) (by decide)

/-- Claim C6, counterexample: the result buffer's capacity is 15, not
equal to the number of registered tests (13). -/
theorem claim_C6_capacity_cex : test_results_capacity ≠ registeredTests.length := by
  decide

/-- Claim C6, amended: the result buffer is a fixed-capacity (15)
ordered collection whose capacity is at least the number of registered
tests (13); running the registered tests stores exactly one result per
invocation at the slot given by execution order, stored results are
never mutated by later tests, and the number of recorded results never
exceeds the capacity. -/
theorem claim_C6_result_buffer (ts : List (String × (Unit → TestResult)))
    (init : ℕ → TestResult) (hn : ts.map Prod.fst = registeredTests) :
    registeredTests.length ≤ test_results_capacity ∧
    (runTests ts ⟨0, init⟩).testCnt = registeredTests.length ∧
    (runTests ts ⟨0, init⟩).testCnt ≤ test_results_capacity ∧
    (∀ k (hk : k < ts.length),
      (runTests ts ⟨0, init⟩).test_results k
        = { (ts.get ⟨k, hk⟩).2 () with device := (ts.get ⟨k, hk⟩).1 }) ∧
    (∀ k, k < ts.length →
      ∀ rest : List (String × (Unit → TestResult)),
        (runTests rest (runTests ts ⟨0, init⟩)).test_results k
          = (runTests ts ⟨0, init⟩).test_results k) := by
  have hlen : ts.length = registeredTests.length := by
    rw [← hn, List.length_map]
  have hcnt : (runTests ts ⟨0, init⟩).testCnt = registeredTests.length := by
    rw [runTests_testCnt]
    show 0 + ts.length = _
    rw [Nat.zero_add, hlen]
  refine ⟨by decide, hcnt, by rw [hcnt]; decide, ?_, ?_⟩
  · intro k hk
    have := runTests_slot ts ⟨0, init⟩ k hk
    rwa [show (⟨0, init⟩ : RunState).testCnt + k = k from by show 0 + k = k; omega]
      at this
  · intro k hk rest
    exact runTests_preserve rest _ k (by rw [hcnt, ← hlen]; exact hk)

/-- Claim C6, witness: running the 13 registered tests with a trivial
probe records 13 results (within the capacity), and slot 5 holds the
result labelled with the 6th registered name. -/
theorem claim_C6_result_buffer_witness :
    (runTests (registeredTests.map
        (fun n => (n, fun _ => (⟨"", true, "OK"⟩ : TestResult))))
      ⟨0, fun _ => (⟨"", true, "OK"⟩ : TestResult)⟩).testCnt
      = registeredTests.length ∧
    (runTests (registeredTests.map
        (fun n => (n, fun _ => (⟨"", true, "OK"⟩ : TestResult))))
      ⟨0, fun _ => (⟨"", true, "OK"⟩ : TestResult)⟩).test_results 5
      = ⟨"HMC5883L", true, "OK"⟩ := by
  have h := claim_C6_result_buffer
    (registeredTests.map (fun n => (n, fun _ => (⟨"", true, "OK"⟩ : TestResult))))
    (fun _ => (⟨"", true, "OK"⟩ : TestResult)) (by rfl)
  refine ⟨h.2.1, ?_⟩
  have h5 := h.2.2.2.1 5 (by decide)
  rw [h5]
  rfl

/-- Claim C7: the result stored by `doTestStore` and the result returned
to the caller have their `device` field equal to the caller-supplied
name, regardless of any device name the probe wrote; the probe-supplied
`success` and `status` fields are preserved; the stored and returned
results coincide. -/
theorem claim_C7_device_overwrite (what : String) (testFunc : Unit → TestResult)
    (st : RunState) :
    (doTestStore what testFunc st).2.device = what ∧
    (doTestStore what testFunc st).2.success = (testFunc ()).success ∧
    (doTestStore what testFunc st).2.status = (testFunc ()).status ∧
    (doTestStore what testFunc st).1.test_results st.testCnt
      = (doTestStore what testFunc st).2 := by
  refine ⟨rfl, rfl, rfl, ?_⟩
  show Function.update st.test_results st.testCnt _ st.testCnt = _
  rw [Function.update_same]
  rfl

/-- Claim C8: the interlock gate, whenever it returns, does so at a time
at which the button is observed released (never before release); on a
press held for `H` milliseconds starting at `t0`, if the press persists
past the 1000 ms check the gate shows the release instruction and clears
it, returning exactly when the release is observed; if the button is
released within the 1000 ms window (including never pressed), the gate
returns without showing any message. -/
theorem claim_C8_interlock (t0 H fuel : ℕ) (hfuel : H + 1001 ≤ fuel) :
    (∀ (trace : ℕ → Bool) (f : ℕ) (g : GateResult),
        doTestGate trace t0 f = some g → trace g.ret = false) ∧
    (1001 ≤ H →
      doTestGate (fun t => decide (t < t0 + H)) t0 fuel
        = some ⟨[releaseMsg, ""], t0 + H⟩) ∧
    (H ≤ 1000 →
      doTestGate (fun t => decide (t < t0 + H)) t0 fuel = some ⟨[], t0 + H⟩) := by
  refine ⟨?_, ?_, ?_⟩
  · intro trace f g hg
    unfold doTestGate at hg
    cases hp : pollWhile (fun t => trace t && decide (t - t0 < 1000)) f t0 with
    | none => rw [hp] at hg; exact absurd hg (by simp)
    | some t1 =>
        rw [hp] at hg
        dsimp only at hg
        by_cases ht1 : trace t1
        · rw [if_pos ht1] at hg
          cases hp2 : pollWhile trace f t1 with
          | none => rw [hp2] at hg; exact absurd hg (by simp)
          | some t2 =>
              rw [hp2] at hg
              have hgv : g = ⟨[releaseMsg, ""], t2⟩ := (Option.some.inj hg).symm
              rw [hgv]
              exact pollWhile_ret trace f t1 t2 hp2
        · rw [if_neg ht1] at hg
          have hgv : g = ⟨[], t1⟩ := (Option.some.inj hg).symm
          rw [hgv]
          exact Bool.eq_false_iff.mpr ht1
  · intro hH
    have h1 : pollWhile (fun t => decide (t < t0 + H) && decide (t - t0 < 1000)) fuel t0
        = some (t0 + 1000) := by
      apply pollWhile_spec
      · omega
      · intro t ht1 ht2
        simp only [Bool.and_eq_true, decide_eq_true_eq]
        omega
      · simp only [Bool.and_eq_false_iff, decide_eq_false_iff_not]
        right
        omega
      · omega
    have h2 : pollWhile (fun t => decide (t < t0 + H)) fuel (t0 + 1000)
        = some (t0 + H) := by
      apply pollWhile_spec
      · omega
      · intro t ht1 ht2
        simp only [decide_eq_true_eq]
        omega
      · simp only [decide_eq_false_iff_not]
        omega
      · omega
    unfold doTestGate
    rw [h1]
    have ht1 : decide (t0 + 1000 < t0 + H) = true := by
      simp only [decide_eq_true_eq]
      omega
    show (if decide (t0 + 1000 < t0 + H) = true then _ else _) = _
    rw [ht1, if_pos rfl, h2]
  · intro hH
    have h1 : pollWhile (fun t => decide (t < t0 + H) && decide (t - t0 < 1000)) fuel t0
        = some (t0 + H) := by
      apply pollWhile_spec
      · omega
      · intro t ht1 ht2
        simp only [Bool.and_eq_true, decide_eq_true_eq]
        omega
      · simp only [Bool.and_eq_false_iff, decide_eq_false_iff_not]
        left
        omega
      · omega
    unfold doTestGate
    rw [h1]
    have ht1 : decide (t0 + H < t0 + H) = false := by
      simp only [decide_eq_false_iff_not]
      omega
    show (if decide (t0 + H < t0 + H) = true then _ else _) = _
    rw [ht1]
    rfl

/-- Claim C8, witness: a press held exactly 1500 ms starting at time 0
and then released makes the gate show the release instruction, clear it,
and return exactly at the release time 1500. -/
theorem claim_C8_interlock_witness :
    doTestGate (fun t => decide (t < 0 + 1500)) 0 2600
      = some ⟨[releaseMsg, ""], 0 + 1500⟩ :=
  (claim_C8_interlock 0 1500 2600 (by decide)).2.1 (by decide)

/-- Claim C9: the startup firmware-end scan returns an address reached
from the fixed upper bound `0x40000` by 2-byte backward steps, such that
every word from that address up to `0x40000` reads erased (`0xFFFF`),
and the scan stopped either at the fixed lower bound `0x3E000` or at the
first non-erased boundary (the word just below the returned address is
not erased). -/
theorem claim_C9_firmware_end_scan (mem : ℕ → ℕ) :
    0x3E000 ≤ scanEnd mem ∧ scanEnd mem ≤ 0x40000 ∧ 2 ∣ scanEnd mem ∧
    (∀ k, scanEnd mem + 2 * k < 0x40000 → mem (scanEnd mem + 2 * k) = 0xFFFF) ∧
    (scanEnd mem = 0x3E000 ∨ mem (scanEnd mem - 2) ≠ 0xFFFF) := by
  unfold scanEnd
  obtain ⟨h1, h2, h3, h4, h5⟩ :=
    scanEndGo_spec mem ((0x40000 - 0x3E000) / 2) 0x40000 (by norm_num)
  exact ⟨h1, h2, by omega, h4, h5⟩

/-- Claim C10, counterexample: on a region of odd byte length 15 (word
count 7, nonzero and not a multiple of 8) the burst variant reads only
the addresses 0 to 14, none of which is at or beyond the end address
15 — the claim's over-read conclusion fails for odd-length regions. -/
theorem claim_C10_overread_cex :
    0 < (15 - 0) / 2 ∧ ¬ (8 ∣ (15 - 0) / 2) ∧
    ∀ a ∈ calcCRCFlashBurstReads (fun _ => 0) 0 15, a < 15 := by decide

/-- Claim C10, amended: on a region of even byte length whose word count
is nonzero and not a multiple of 8, the burst variant reads at least one
address at or beyond the end address (and never more than 14 bytes past
it, all reads starting at or after the start address), while the
sequential variant reads only addresses inside `[start, end)`; the words
read beyond the end do not affect the returned checksum. -/
theorem claim_C10_overread (mem mem' : ℕ → ℕ) (s e seed : ℕ)
    (h1 : s ≤ e) (h2 : e + 14 ≤ U32) (heven : 2 ∣ (e - s))
    (h3 : 0 < (e - s) / 2) (h4 : ¬ (8 ∣ (e - s) / 2)) :
    (∃ a ∈ calcCRCFlashBurstReads mem s e, e ≤ a) ∧
    (∀ a ∈ calcCRCFlashBurstReads mem s e, s ≤ a ∧ a < e + 14) ∧
    (∀ a ∈ calcCRCFlashReads mem s e, s ≤ a ∧ a < e) ∧
    ((∀ a, s ≤ a → a < e → mem a = mem' a) →
      calcCRCFlashBurst mem s e seed = calcCRCFlashBurst mem' s e seed) := by
  have hs : s % U32 = s := Nat.mod_eq_of_lt (by omega)
  have hit : flashIters s e = (e - s) / 2 := flashIters_eq s e h1 (by omega) (by omega)
  have hN : 8 * (((e - s) / 2 + 7) / 8) ≤ (e - s) / 2 + 7 := by omega
  have hNw : (e - s) / 2 < 8 * (((e - s) / 2 + 7) / 8) := by omega
  have hreads : calcCRCFlashBurstReads mem s e
      = (List.range (8 * (((e - s) / 2 + 7) / 8))).map (fun i => (s + 2 * i) % U32) := by
    unfold calcCRCFlashBurstReads
    rw [hit, hs, crcBurstLoop_reads_entry]
  have hmod : ∀ i, i < 8 * (((e - s) / 2 + 7) / 8) → (s + 2 * i) % U32 = s + 2 * i :=
    fun i hi => Nat.mod_eq_of_lt (by omega)
  refine ⟨?_, ?_, ?_, ?_⟩
  · refine ⟨s + 2 * ((e - s) / 2), ?_, by omega⟩
    rw [hreads, List.mem_map]
    exact ⟨(e - s) / 2, List.mem_range.mpr hNw, hmod _ hNw⟩
  · intro a ha
    rw [hreads, List.mem_map] at ha
    obtain ⟨i, hi, hia⟩ := ha
    rw [List.mem_range] at hi
    rw [hmod i hi] at hia
    omega
  · intro a ha
    have hsr : calcCRCFlashReads mem s e = List.range' s ((e - s) / 2) 2 := by
      unfold calcCRCFlashReads
      rw [hit, hs, crcLoop_reads mem _ s _ (by omega)]
    rw [hsr, List.mem_range'] at ha
    obtain ⟨i, hi, hia⟩ := ha
    omega
  · intro hag
    unfold calcCRCFlashBurst
    rw [crcBurstLoop_entry mem _ _ _ (by rw [hs]; omega),
      crcBurstLoop_entry mem' _ _ _ (by rw [hs]; omega), hit, hs]
    congr 1
    apply crcLoop_congr mem mem' _ _ _ (by omega)
    intro x hx
    rw [List.mem_range'] at hx
    obtain ⟨i, hi, hxi⟩ := hx
    exact hag x (by omega) (by omega)

/-- Claim C10, witness: on the region `[0, 18)` (9 words), the burst
variant reads an address at or beyond the end address 18. -/
theorem claim_C10_overread_witness :
    ∃ a ∈ calcCRCFlashBurstReads (fun x => x) 0 18, 18 ≤ a :=
  (claim_C10_overread (fun x => x) (fun x => x) 0 18 0 (by decide) (by decide)
    (by decide) (by decide) (by decide)).1

end PhoneArd
